import Mathlib

/-!
Shallow embedding of the performance-event encoder from `src/lib.rs` of the
midi2performance repository, together with theorems checking the frozen claims
about the natural-language specification.

Conventions used throughout the embedding:
* Rust `i16` values are modelled as `Int`; every Rust `i16` operation used by
  the program stays far away from the i16 overflow boundary on the values the
  program manipulates (keys and velocities are 0..127, buckets 0..99, tokens
  0..387), so plain `Int` arithmetic is value-faithful.  Rust `i16` division
  truncates toward zero, so `/` on `i16` is translated as `Int.tdiv`.
* Rust `u32` values are modelled as `Nat`, with an explicit `% 2 ^ 32` exactly
  where the Rust arithmetic can wrap (release-mode wrapping semantics).
* Rust `HashSet<i16>` is modelled as a duplicate-free `List Int`; `insert`
  appends, `remove` filters, both returning the boolean the Rust methods
  return.  The iteration order of a Rust `HashSet` is unspecified (std uses a
  randomly seeded hash), so every place that iterates over a hash set takes an
  explicit iteration-order parameter `ord : List Int → List Int`.
* Rust panics (`panic!`, `expect`, out-of-bounds indexing) in the top-level
  entry points are modelled with `Except String`.
-/

namespace Midi2Performance

/-- `PerformanceEvent` from `lib.rs` (payloads are `i16`). -/
inductive PerformanceEvent : Type where
  | NoteOn (v : Int)
  | NoteOff (v : Int)
  | TimeShift (v : Int)
  | Velocity (v : Int)
deriving DecidableEq, Repr

/-- `u7_to_i16` from `lib.rs`: widening a `u7` (value 0..127) into `i16` is the
numeric inclusion. -/
def u7_to_i16 (v : Nat) : Int := (v : Int)

/-- Rust `x as i16` applied to a `u32` value: truncate to 16 bits, then
reinterpret as two's-complement. -/
def i16_of_u32 (n : Nat) : Int :=
  if n % 65536 < 32768 then ((n % 65536 : Nat) : Int)
  else ((n % 65536 : Nat) : Int) - 65536

/-- `ticks_to_timeshift` from `lib.rs`: `(ticks * 100 - 50) / ticks_per_sec` in
`u32` arithmetic.  The subtraction/multiplication wrap modulo `2 ^ 32`
(release-mode semantics); `ticks * 100 - 50` is written as
`ticks * 100 + (2 ^ 32 - 50)` before reducing, which agrees with `u32`
wrapping for every `ticks < 2 ^ 32`.  Rust panics on `ticks_per_sec = 0`
(division by zero); `Nat` division returns 0 there instead, and theorems about
this function assume `ticks_per_sec ≥ 1`. -/
def ticks_to_timeshift (ticks ticks_per_sec : Nat) : Nat :=
  ((ticks * 100 + (2 ^ 32 - 50)) % 2 ^ 32) / ticks_per_sec

/-- `event_to_index` from `lib.rs`. -/
def event_to_index : PerformanceEvent → Int
  | .NoteOn v => v
  | .NoteOff v => v + 128
  | .TimeShift v => v + 256
  | .Velocity v => v.tdiv 4 + 356

/-- `index_to_event` from `lib.rs` (`Result<PerformanceEvent, String>`). -/
def index_to_event (idx : Int) : Except String PerformanceEvent :=
  if 0 ≤ idx ∧ idx < 128 then .ok (.NoteOn idx)
  else if 128 ≤ idx ∧ idx < 256 then .ok (.NoteOff (idx - 128))
  else if 256 ≤ idx ∧ idx < 356 then .ok (.TimeShift (idx - 256))
  else if 356 ≤ idx ∧ idx < 388 then .ok (.Velocity (idx - 356))
  else .error ("index " ++ toString idx ++ " not supported")

/-! ## Timed messages and tracks (the subset of `midly` the program consumes) -/

/-- The `midly::MidiMessage` variants the encoder looks at.  `NoteOff` and all
remaining variants fall through the encoder's catch-all arm; they are kept as
explicit constructors so that the catch-all is part of the model.  All payload
fields are 7-bit values (0..127). -/
inductive MidiMessage : Type where
  | NoteOn (key vel : Nat)
  | NoteOff (key vel : Nat)
  | Controller (controller value : Nat)
  | OtherMessage
deriving DecidableEq, Repr

/-- The `midly::TrackEventKind` variants the program matches on: a channel MIDI
message, a tempo meta message (`Meta(MetaMessage::Tempo _)`, payload a `u24`),
and everything else. -/
inductive TrackEventKind : Type where
  | Midi (channel : Nat) (message : MidiMessage)
  | MetaTempo (us_per_beat : Nat)
  | OtherKind
deriving DecidableEq, Repr

/-- `midly::TrackEvent`: a delta time in ticks (a `u28`, so `0 ≤ delta < 2^28`)
and an event kind. -/
structure TrackEvent : Type where
  delta : Nat
  kind : TrackEventKind
deriving DecidableEq, Repr

/-- `midly::Format`. -/
inductive Format : Type where
  | SingleTrack
  | Parallel
  | Sequential
deriving DecidableEq, Repr

/-- `midly::Timing`: metrical (ticks per beat, a `u15`) or anything else. -/
inductive Timing : Type where
  | Metrical (ticks_per_beat : Nat)
  | OtherTiming
deriving DecidableEq, Repr

/-- The part of `midly::Smf` the program reads. -/
structure Smf : Type where
  format : Format
  timing : Timing
  tracks : List (List TrackEvent)

/-! ## Track linearizer (`merge_parallel_tracks`) -/

/-- The first loop of `merge_parallel_tracks`, per track: tag every event with
its running absolute tick position (`t += delta` on a `u32`, hence the
`% 2 ^ 32`). -/
def tagTrack (t : Nat) : List TrackEvent → List (TrackEvent × Nat)
  | [] => []
  | e :: es =>
    let t' := (t + e.delta) % 2 ^ 32
    (e, t') :: tagTrack t' es

/-- The last loop of `merge_parallel_tracks`: re-derive deltas as differences
of consecutive absolute ticks.  The list is sorted ascending at the call site,
so the `u32` subtraction `new_t - prev_t` never underflows, and (provably)
every difference fits in the `u28` delta field, so the `u32 → u28` conversion
is lossless and is modelled as the plain difference. -/
def redelta (prev_t : Nat) : List (TrackEvent × Nat) → List TrackEvent
  | [] => []
  | (e, new_t) :: rest => { delta := new_t - prev_t, kind := e.kind } :: redelta new_t rest

/-- Comparison used by `combined_track.sort_by_key(|v| v.1)`: sort by absolute
tick.  Rust's `sort_by_key` is a stable sort, modelled by `List.mergeSort`. -/
def tickLE (a b : TrackEvent × Nat) : Bool := a.2 ≤ b.2

/-- `merge_parallel_tracks` from `lib.rs`. -/
def merge_parallel_tracks (tracks : List (List TrackEvent)) : List TrackEvent :=
  let combined_track := (tracks.map (tagTrack 0)).flatten
  redelta 0 (combined_track.mergeSort tickLE)

/-! ## Hash-set model

`HashSet<i16>` is modelled as a duplicate-free `List Int`.  `hsInsert` and
`hsRemove` return the boolean result of the Rust methods.  Element order in
the list is insertion order; the *iteration* order of a real `HashSet` is
unspecified, so code that iterates (the pedal-release loop) takes an explicit
reordering parameter. -/

def hsInsert (l : List Int) (k : Int) : List Int × Bool :=
  if l.contains k then (l, false) else (l ++ [k], true)

def hsRemove (l : List Int) (k : Int) : List Int × Bool :=
  if l.contains k then (l.filter (fun x => x != k), true) else (l, false)

/-! ## Event encoder (`midi_to_events`) -/

/-- Encoder state across the main loop of `midi_to_events` (the output list and
the `previous_ticks` accumulator are kept alongside in `LoopState`). -/
structure EncState : Type where
  is_pedal_down : Bool
  sustained_notes : List Int
  notes_on : List Int
deriving DecidableEq, Repr

structure LoopState : Type where
  enc : EncState
  events : List PerformanceEvent
  previous_ticks : Nat
deriving DecidableEq, Repr

/-- The chunk sizes produced by the `while ticks > 0` loop: repeatedly take
`min(ticks, ticks_per_sec)`.  When `ticks_per_sec = 0` the Rust loop body
panics on its first iteration (division by zero inside `ticks_to_timeshift`);
the model returns `[]` there. -/
def chunks (ticks_per_sec : Nat) (ticks : Nat) : List Nat :=
  if _h0 : ticks_per_sec = 0 then []
  else if _h1 : ticks = 0 then []
  else
    (if ticks > ticks_per_sec then ticks_per_sec else ticks) ::
      chunks ticks_per_sec (ticks - (if ticks > ticks_per_sec then ticks_per_sec else ticks))
termination_by ticks
decreasing_by split <;> omega

/-- The time-accumulation step (`if event.delta > 0 { ... }`): combine the
delta with `previous_ticks` (`u32` addition), split into chunks, and push one
`TimeShift` per chunk — except that when `previous_ticks ≠ 0` the first chunk
overwrites the last element of `events` in place (`events[events.len() - 1]`)
instead of being pushed.  Returns the new `events` and the new
`previous_ticks` (the last chunk size, `ticks_chunk`).  When the overwrite
fires with `events = []` the Rust program panics (`events.len() - 1`
underflows); the model drops nothing there, and claim 10 shows the situation
is unreachable. -/
def timeStep (ticks_per_sec : Nat) (events : List PerformanceEvent)
    (previous_ticks : Nat) (delta : Nat) : List PerformanceEvent × Nat :=
  if delta > 0 then
    let ticks := (delta + previous_ticks) % 2 ^ 32
    let cs := chunks ticks_per_sec ticks
    let shifts := cs.map fun c =>
      PerformanceEvent.TimeShift (i16_of_u32 (ticks_to_timeshift c ticks_per_sec))
    let events' :=
      if previous_ticks = 0 then events ++ shifts
      else if shifts.isEmpty then events
      else events.dropLast ++ shifts
    (events', (cs.getLast?).getD 0)
  else (events, previous_ticks)

/-- The pedal-release loop (`for &key in &sustained_notes`): walk the sustained
set in the given iteration order, remove each key from `notes_on`, and emit a
`NoteOff` for every key whose removal succeeded.  Returns the new `notes_on`
and the emitted block. -/
def pedalRelease (notes_on : List Int) : List Int → List Int × List PerformanceEvent
  | [] => (notes_on, [])
  | k :: ks =>
    let r := hsRemove notes_on k
    let rest := pedalRelease r.1 ks
    if r.2 then (rest.1, PerformanceEvent.NoteOff k :: rest.2) else rest

/-- The `match event.kind` block of the encoder loop: dispatch on the message,
update the pedal/sustain/note state, and return the block of events pushed by
this message.  `ord` is the iteration order used for the sustained-notes hash
set in the pedal-release branch. -/
def processMessage (ord : List Int → List Int) (st : EncState) :
    TrackEventKind → EncState × List PerformanceEvent
  | .Midi _ message =>
    match message with
    | .NoteOn key vel =>
      let key := u7_to_i16 key
      if vel == 0 then
        if st.is_pedal_down && st.notes_on.contains key then
          ({ st with sustained_notes := (hsInsert st.sustained_notes key).1 }, [])
        else
          let r := hsRemove st.notes_on key
          if r.2 then ({ st with notes_on := r.1 }, [.NoteOff key])
          else ({ st with notes_on := r.1 }, [])
      else
        let r := hsRemove st.sustained_notes key
        if r.2 then
          ({ st with sustained_notes := r.1 },
            [.NoteOff key, .Velocity (u7_to_i16 vel), .NoteOn key])
        else
          let r2 := hsInsert st.notes_on key
          if r2.2 then
            ({ st with notes_on := r2.1 }, [.Velocity (u7_to_i16 vel), .NoteOn key])
          else ({ st with notes_on := r2.1 }, [])
    | .Controller controller value =>
      if controller == 64 then
        if st.is_pedal_down && value < 64 then
          let pr := pedalRelease st.notes_on (ord st.sustained_notes)
          ({ is_pedal_down := decide (value ≥ 64), sustained_notes := [],
             notes_on := pr.1 }, pr.2)
        else
          ({ st with is_pedal_down := decide (value ≥ 64) }, [])
      else (st, [])
    | _ => (st, [])
  | _ => (st, [])

/-- One iteration of the encoder's main `for event in tracks` loop. -/
def stepEvent (ord : List Int → List Int) (ticks_per_sec : Nat)
    (st : LoopState) (event : TrackEvent) : LoopState :=
  let te := timeStep ticks_per_sec st.events st.previous_ticks event.delta
  let pm := processMessage ord st.enc event.kind
  let events' := te.1 ++ pm.2
  { enc := pm.1,
    events := events',
    previous_ticks := if events'.length > te.1.length then 0 else te.2 }

def initState : LoopState :=
  { enc := { is_pedal_down := false, sustained_notes := [], notes_on := [] },
    events := [], previous_ticks := 0 }

/-- The whole encoder loop of `midi_to_events`, given `ticks_per_sec` and the
linearized track. -/
def encodeTrack (ord : List Int → List Int) (ticks_per_sec : Nat)
    (track : List TrackEvent) : LoopState :=
  track.foldl (stepEvent ord ticks_per_sec) initState

/-- `get_tracks` from `lib.rs`.  `panic!` and the out-of-bounds
`tracks.remove(0)` on an empty track list are modelled as errors. -/
def get_tracks (smf : Smf) : Except String (List TrackEvent) :=
  match smf.format with
  | .SingleTrack =>
    match smf.tracks with
    | [] => .error "removal index (is 0) should be < len (is 0)"
    | t :: _ => .ok t
  | .Parallel => .ok (merge_parallel_tracks smf.tracks)
  | .Sequential => .error "Sequential tracks not supported"

/-- The tempo-scanning loop of `midi_to_events`: first `Tempo` meta message. -/
def findTempo : List TrackEvent → Option Nat
  | [] => none
  | e :: rest =>
    match e.kind with
    | .MetaTempo x => some x
    | _ => findTempo rest

/-- `midi_to_events` from `lib.rs`.  The three `panic!`/`expect` failures
(non-metrical timing, unsupported format, missing tempo) become `Except`
errors, so an error carries no partial event list.  `ticks_per_sec` is
computed in `u32` arithmetic: the product `ticks_per_beat * 1_000_000` wraps
modulo `2 ^ 32`.  (Rust additionally panics when `us_per_beat = 0` — division
by zero — and inside the loop when `ticks_per_sec = 0` and some delta is
positive; the model's `Nat` division returns 0 there.) -/
def midi_to_events (ord : List Int → List Int) (smf : Smf) :
    Except String (List PerformanceEvent) := do
  let ticks_per_beat ←
    match smf.timing with
    | .Metrical x => Except.ok x
    | _ => Except.error "Could not find metric timing header"
  let tracks ← get_tracks smf
  let us_per_beat ←
    match findTempo tracks with
    | some x => Except.ok x
    | none => Except.error "Could not find tempo message"
  let ticks_per_sec := ticks_per_beat * 1000000 % 2 ^ 32 / us_per_beat
  return (encodeTrack ord ticks_per_sec tracks).events

/-! ## Claim 1: vocabulary round trip -/

/-- Claim C1 counterexample.  The claim says `event_to_index ∘ index_to_event`
is the identity on every token in [0, 387].  It fails at token 357:
`index_to_event` produces the *bucket* `Velocity 1`, but `event_to_index`
expects a *raw* velocity (the encoder stores raw velocities in `Velocity`
events) and divides by 4 again, landing on 356 ≠ 357. -/
theorem claim1_roundtrip_counterexample :
    index_to_event 357 = .ok (.Velocity 1) ∧
    event_to_index (.Velocity 1) = 356 ∧ (356 : Int) ≠ 357 := by
  refine ⟨by rfl, by decide, by decide⟩

/-- Claim C1, amended.  Forward-then-inverse vocabulary mapping is the
identity for every token in [0, 356]; for a velocity token `t ∈ [356, 387]`
the inverse map succeeds with `Velocity (t - 356)` but mapping back yields
`356 + (t - 356) / 4` (so the identity fails on 357..387); every token outside
[0, 387] makes `index_to_event` return the out-of-range error value. -/
theorem claim1_roundtrip_amended :
    (∀ t : Int, 0 ≤ t → t ≤ 356 →
      ∃ e, index_to_event t = .ok e ∧ event_to_index e = t) ∧
    (∀ t : Int, 356 ≤ t → t ≤ 387 →
      index_to_event t = .ok (.Velocity (t - 356)) ∧
      event_to_index (.Velocity (t - 356)) = (t - 356).tdiv 4 + 356) ∧
    (∀ t : Int, t < 0 ∨ 387 < t → ∃ msg, index_to_event t = .error msg) := by
  refine ⟨?_, ?_, ?_⟩
  · intro t h0 h1
    unfold index_to_event
    split_ifs with hA hB hC hD
    · exact ⟨.NoteOn t, rfl, rfl⟩
    · refine ⟨.NoteOff (t - 128), rfl, ?_⟩
      show t - 128 + 128 = t
      omega
    · refine ⟨.TimeShift (t - 256), rfl, ?_⟩
      show t - 256 + 256 = t
      omega
    · have ht : t = 356 := by omega
      subst ht
      exact ⟨.Velocity 0, by norm_num, by decide⟩
    · omega
  · intro t h0 h1
    unfold index_to_event
    split_ifs with hA hB hC hD
    · omega
    · omega
    · omega
    · refine ⟨rfl, ?_⟩
      rfl
    · omega
  · intro t h
    unfold index_to_event
    split_ifs with hA hB hC hD
    · omega
    · omega
    · omega
    · omega
    · exact ⟨_, rfl⟩

/-- Closed witness for `claim1_roundtrip_amended` at tokens 188, 360, 400. -/
theorem claim1_roundtrip_amended_witness :
    (∃ e, index_to_event 188 = .ok e ∧ event_to_index e = 188) ∧
    (index_to_event 360 = .ok (.Velocity 4) ∧
      event_to_index (.Velocity 4) = (4 : Int).tdiv 4 + 356) ∧
    (∃ msg, index_to_event 400 = .error msg) := by
  refine ⟨claim1_roundtrip_amended.1 188 (by decide) (by decide), ?_, ?_⟩
  · have h := claim1_roundtrip_amended.2.1 360 (by decide) (by decide)
    norm_num at h ⊢
    exact h
  · exact claim1_roundtrip_amended.2.2 400 (by decide)

/-! ## Claim 2: retrigger semantics -/

/-- Claim C2 counterexample.  The claim says a `NoteOn` with positive velocity
whose key is already in `notes_on` (and not sustained) re-emits
Velocity + NoteOn.  In `lib.rs` this case falls into
`else if notes_on.insert(key)`, whose insert returns `false`, so *nothing* is
emitted: two consecutive `NoteOn(60, 80)` messages produce two events, not
four. -/
theorem claim2_retrigger_counterexample :
    (encodeTrack id 1 [⟨0, .Midi 0 (.NoteOn 60 80)⟩, ⟨0, .Midi 0 (.NoteOn 60 80)⟩]).events
      = [.Velocity 80, .NoteOn 60] ∧
    (encodeTrack id 1 [⟨0, .Midi 0 (.NoteOn 60 80)⟩, ⟨0, .Midi 0 (.NoteOn 60 80)⟩]).events
      ≠ [.Velocity 80, .NoteOn 60, .Velocity 80, .NoteOn 60] := by
  exact ⟨by rfl, by decide⟩

/-- Claim C2, amended.  For every `NoteOn` message with velocity > 0 whose key
is already in `notes_on` but not in `sustained_notes`, the encoder emits *no*
events (the message is ignored: the key is neither re-inserted nor
re-triggered) and the encoder state is unchanged; in particular the key
remains in `notes_on`. -/
theorem claim2_retrigger_amended (ord : List Int → List Int) (st : EncState)
    (ch key vel : Nat) (h1 : u7_to_i16 key ∈ st.notes_on)
    (h2 : u7_to_i16 key ∉ st.sustained_notes) (h3 : 0 < vel) :
    processMessage ord st (.Midi ch (.NoteOn key vel)) = (st, []) := by
  have hv : (vel == 0) = false := by
    simp only [beq_eq_false_iff_ne]
    omega
  have hc2 : st.sustained_notes.contains (u7_to_i16 key) = false := by
    simpa using h2
  have hc1 : st.notes_on.contains (u7_to_i16 key) = true := by
    simpa using h1
  simp only [processMessage, hv, Bool.false_eq_true, if_false, hsRemove, hc2,
    hsInsert, hc1, if_true, if_false]

/-- Closed witness for `claim2_retrigger_amended`: a second `NoteOn(60, 80)`
against the state reached after the first one is ignored. -/
theorem claim2_retrigger_amended_witness :
    processMessage id { is_pedal_down := false, sustained_notes := [], notes_on := [60] }
        (.Midi 0 (.NoteOn 60 80))
      = ({ is_pedal_down := false, sustained_notes := [], notes_on := [60] }, []) :=
  claim2_retrigger_amended id _ 0 60 80 (by decide) (by decide) (by decide)

/-! ## Claim 3: basic NoteOn/NoteOff sequence and its tokens -/

/-- Claim C3 counterexample.  The claim says the emitted sequence is
`Velocity(20), NoteOn(60), NoteOff(60)`.  The encoder stores the *raw*
velocity in the `Velocity` event (quantization by 4 happens later, inside
`event_to_index`), so the actual sequence holds `Velocity 80`, not
`Velocity 20` — and `event_to_index (Velocity 20) = 361`, not the claimed
376. -/
theorem claim3_basic_sequence_counterexample :
    (encodeTrack id 960 [⟨0, .Midi 0 (.NoteOn 60 80)⟩, ⟨0, .Midi 0 (.NoteOn 60 0)⟩]).events
      ≠ [.Velocity 20, .NoteOn 60, .NoteOff 60] ∧
    event_to_index (.Velocity 20) = 361 := by
  exact ⟨by decide, by rfl⟩

/-- Claim C3, amended.  From the initial encoder state with the pedal up,
`NoteOn(60, 80)` immediately followed by the velocity-0 release of key 60
(both with zero delta) produces exactly `Velocity 80, NoteOn 60, NoteOff 60`
(the raw velocity 80; its bucket 80 / 4 = 20 is applied by the vocabulary
map), and the forward vocabulary map sends these three events to the tokens
376, 60, 188 in that order. -/
theorem claim3_basic_sequence_amended (tps : Nat) :
    (encodeTrack id tps [⟨0, .Midi 0 (.NoteOn 60 80)⟩, ⟨0, .Midi 0 (.NoteOn 60 0)⟩]).events
      = [.Velocity 80, .NoteOn 60, .NoteOff 60] ∧
    [PerformanceEvent.Velocity 80, .NoteOn 60, .NoteOff 60].map event_to_index
      = [376, 60, 188] := by
  exact ⟨by rfl, by rfl⟩

/-! ## Claim 4: sustain pedal defers the release -/

/-- Claim C4.  With the sustain pedal held down (controller 64, value 127,
already processed), `NoteOn(60, 80)` followed by a velocity-0 `NoteOn(60)`
emits only the Velocity and NoteOn events for key 60 and no `NoteOff`; the
`NoteOff(60)` is emitted exactly when a later controller-64 message with
value < 64 is processed. -/
theorem claim4_pedal_sustain (tps v : Nat) (hv : v < 64) :
    (encodeTrack id tps [⟨0, .Midi 0 (.Controller 64 127)⟩, ⟨0, .Midi 0 (.NoteOn 60 80)⟩,
        ⟨0, .Midi 0 (.NoteOn 60 0)⟩]).events
      = [.Velocity 80, .NoteOn 60] ∧
    (encodeTrack id tps [⟨0, .Midi 0 (.Controller 64 127)⟩, ⟨0, .Midi 0 (.NoteOn 60 80)⟩,
        ⟨0, .Midi 0 (.NoteOn 60 0)⟩, ⟨0, .Midi 0 (.Controller 64 v)⟩]).events
      = [.Velocity 80, .NoteOn 60, .NoteOff 60] := by
  constructor
  · rfl
  · have h64 : decide (v < 64) = true := by simpa using hv
    simp [encodeTrack, stepEvent, processMessage, timeStep, pedalRelease, hsRemove, hsInsert,
      initState, u7_to_i16, h64]

/-- Closed witness for `claim4_pedal_sustain` at `tps = 1`, `v = 0`. -/
theorem claim4_pedal_sustain_witness :
    (encodeTrack id 1 [⟨0, .Midi 0 (.Controller 64 127)⟩, ⟨0, .Midi 0 (.NoteOn 60 80)⟩,
        ⟨0, .Midi 0 (.NoteOn 60 0)⟩]).events
      = [.Velocity 80, .NoteOn 60] ∧
    (encodeTrack id 1 [⟨0, .Midi 0 (.Controller 64 127)⟩, ⟨0, .Midi 0 (.NoteOn 60 80)⟩,
        ⟨0, .Midi 0 (.NoteOn 60 0)⟩, ⟨0, .Midi 0 (.Controller 64 0)⟩]).events
      = [.Velocity 80, .NoteOn 60, .NoteOff 60] :=
  claim4_pedal_sustain 1 0 (by decide)

/-! ## Claim 9: fatal failures produce no partial output -/

theorem mem_of_mem_tagTrack {p : TrackEvent × Nat} :
    ∀ {tr : List TrackEvent} {s : Nat}, p ∈ tagTrack s tr → p.1 ∈ tr := by
  intro tr
  induction tr with
  | nil => intro s h; simp [tagTrack] at h
  | cons e es ih =>
    intro s h
    simp only [tagTrack, List.mem_cons] at h
    rcases h with h | h
    · subst h; exact List.mem_cons_self _ _
    · exact List.mem_cons_of_mem _ (ih h)

theorem kind_of_mem_redelta {e' : TrackEvent} :
    ∀ {l : List (TrackEvent × Nat)} {p : Nat}, e' ∈ redelta p l →
      ∃ q ∈ l, e'.kind = q.1.kind := by
  intro l
  induction l with
  | nil => intro p h; simp [redelta] at h
  | cons q rest ih =>
    intro p h
    obtain ⟨e, t⟩ := q
    simp only [redelta, List.mem_cons] at h
    rcases h with h | h
    · exact ⟨(e, t), List.mem_cons_self _ _, by simp [h]⟩
    · obtain ⟨q', hq', hk⟩ := ih h
      exact ⟨q', List.mem_cons_of_mem _ hq', hk⟩

/-- Every event of the merged track takes its kind from some input event. -/
theorem kind_of_mem_merge {tracks : List (List TrackEvent)} {e' : TrackEvent}
    (h : e' ∈ merge_parallel_tracks tracks) :
    ∃ tr ∈ tracks, ∃ e ∈ tr, e'.kind = e.kind := by
  unfold merge_parallel_tracks at h
  obtain ⟨q, hq, hk⟩ := kind_of_mem_redelta h
  rw [List.mem_mergeSort] at hq
  rw [List.mem_flatten] at hq
  obtain ⟨part, hpart, hqpart⟩ := hq
  rw [List.mem_map] at hpart
  obtain ⟨tr, htr, rfl⟩ := hpart
  exact ⟨tr, htr, q.1, mem_of_mem_tagTrack hqpart, hk⟩

theorem findTempo_eq_none {l : List TrackEvent}
    (h : ∀ e ∈ l, ∀ x, e.kind ≠ .MetaTempo x) : findTempo l = none := by
  induction l with
  | nil => rfl
  | cons e rest ih =>
    have he := h e (List.mem_cons_self _ _)
    have hrest : ∀ e' ∈ rest, ∀ x, e'.kind ≠ .MetaTempo x := fun e' h' x =>
      h e' (List.mem_cons_of_mem _ h') x
    cases hk : e.kind with
    | MetaTempo x => exact absurd hk (he x)
    | Midi ch m => simp only [findTempo, hk]; exact ih hrest
    | OtherKind => simp only [findTempo, hk]; exact ih hrest

/-- Claim C9.  For every input whose track layout is sequential, or whose
timing convention is not tick-based/metrical, or none of whose tracks contains
a `Tempo` meta message, `midi_to_events` fails with an error: in the model (as
in the Rust code, which panics) an error carries no event list at all, so no
partial output is ever returned. -/
theorem claim9_fatal_errors (ord : List Int → List Int) (smf : Smf)
    (h : smf.format = .Sequential ∨ (∀ x, smf.timing ≠ .Metrical x) ∨
      (∀ tr ∈ smf.tracks, ∀ e ∈ tr, ∀ x, e.kind ≠ .MetaTempo x)) :
    ∃ msg, midi_to_events ord smf = .error msg := by
  obtain ⟨fmt, timing, tracks⟩ := smf
  rcases h with h | h | h
  · simp only at h
    subst h
    cases timing with
    | Metrical x => exact ⟨_, rfl⟩
    | OtherTiming => exact ⟨_, rfl⟩
  · cases timing with
    | Metrical x => exact absurd rfl (h x)
    | OtherTiming => exact ⟨_, rfl⟩
  · cases timing with
    | OtherTiming => exact ⟨_, rfl⟩
    | Metrical x =>
      cases fmt with
      | Sequential => exact ⟨_, rfl⟩
      | SingleTrack =>
        cases tracks with
        | nil => exact ⟨_, rfl⟩
        | cons t rest =>
          have ht : findTempo t = none :=
            findTempo_eq_none (h t (List.mem_cons_self _ _))
          refine ⟨"Could not find tempo message", ?_⟩
          simp [midi_to_events, get_tracks, ht, bind, Except.bind]
      | Parallel =>
        have hm : findTempo (merge_parallel_tracks tracks) = none := by
          apply findTempo_eq_none
          intro e' he' x hx
          obtain ⟨tr, htr, e, he, hk⟩ := kind_of_mem_merge he'
          exact h tr htr e he x (hk ▸ hx)
        refine ⟨"Could not find tempo message", ?_⟩
        simp [midi_to_events, get_tracks, hm, bind, Except.bind]

/-- Closed witness for `claim9_fatal_errors`: a sequential-format input is
rejected. -/
theorem claim9_fatal_errors_witness :
    ∃ msg, midi_to_events id
      { format := .Sequential, timing := .Metrical 480,
        tracks := [[⟨0, .MetaTempo 500000⟩]] } = .error msg :=
  claim9_fatal_errors id _ (Or.inl rfl)

/-! ## Claim 6: TimeShift buckets stay in [0, 99] -/

/-- The arithmetic heart of claim 6, stated for the `u32` wrapping model: for
`1 ≤ c ≤ ticks_per_sec < 2^32` the wrapped value `c * 100 - 50` is below
`100 * ticks_per_sec`, either because no wrap occurs (`c ≤ 42949672`) or
because `100 * ticks_per_sec` already exceeds `2^32 - 1`. -/
theorem ticks_to_timeshift_le {c tps : Nat} (h1 : 1 ≤ c) (h2 : c ≤ tps)
    (h3 : tps < 2 ^ 32) : ticks_to_timeshift c tps ≤ 99 := by
  have htpos : 0 < tps := Nat.lt_of_lt_of_le h1 h2
  have hlt : (c * 100 + (2 ^ 32 - 50)) % 2 ^ 32 < 100 * tps := by omega
  have hdiv : (c * 100 + (2 ^ 32 - 50)) % 2 ^ 32 / tps < 100 :=
    (Nat.div_lt_iff_lt_mul htpos).mpr (by omega)
  have : ticks_to_timeshift c tps = (c * 100 + (2 ^ 32 - 50)) % 2 ^ 32 / tps := rfl
  omega

/-- Every chunk produced by the `while ticks > 0` loop lies in
`[1, ticks_per_sec]`. -/
theorem mem_chunks_bounds {tps : Nat} {t : Nat} :
    ∀ {c : Nat}, c ∈ chunks tps t → 1 ≤ c ∧ c ≤ tps := by
  induction t using Nat.strong_induction_on with
  | _ t ih =>
    intro c hc
    rw [chunks] at hc
    split_ifs at hc with h0 h1 h2
    · exact absurd hc (List.not_mem_nil c)
    · exact absurd hc (List.not_mem_nil c)
    · rcases List.mem_cons.mp hc with h | h
      · subst h; omega
      · exact ih _ (by omega) h
    · rcases List.mem_cons.mp hc with h | h
      · subst h; omega
      · rw [Nat.sub_self] at h
        exact ih 0 (by omega) h

theorem i16_of_u32_small {n : Nat} (h : n ≤ 99) : i16_of_u32 n = (n : Int) := by
  have hm : n % 65536 = n := Nat.mod_eq_of_lt (by omega)
  simp [i16_of_u32, hm]
  omega

/-- Abbreviation for the block of `TimeShift` events the time-accumulation
step builds from the chunks of `ticks`. -/
def tsShifts (tps t : Nat) : List PerformanceEvent :=
  (chunks tps t).map fun c => PerformanceEvent.TimeShift (i16_of_u32 (ticks_to_timeshift c tps))

theorem timeStep_eq_of_pos {tps : Nat} {events : List PerformanceEvent} {prev delta : Nat}
    (hd : delta > 0) :
    timeStep tps events prev delta =
      ((if prev = 0 then events ++ tsShifts tps ((delta + prev) % 2 ^ 32)
        else if (tsShifts tps ((delta + prev) % 2 ^ 32)).isEmpty then events
        else events.dropLast ++ tsShifts tps ((delta + prev) % 2 ^ 32)),
       ((chunks tps ((delta + prev) % 2 ^ 32)).getLast?).getD 0) := by
  simp [timeStep, tsShifts, hd]

theorem timeStep_eq_of_not_pos {tps : Nat} {events : List PerformanceEvent} {prev delta : Nat}
    (hd : ¬ delta > 0) : timeStep tps events prev delta = (events, prev) := by
  simp [timeStep, hd]

/-- Every event in the output of the time-accumulation step is either an old
event or one of the freshly built `TimeShift`s. -/
theorem mem_timeStep {tps : Nat} {events : List PerformanceEvent} {prev delta : Nat}
    {e : PerformanceEvent} (he : e ∈ (timeStep tps events prev delta).1) :
    e ∈ events ∨ ∃ c ∈ chunks tps ((delta + prev) % 2 ^ 32),
      e = PerformanceEvent.TimeShift (i16_of_u32 (ticks_to_timeshift c tps)) := by
  by_cases hd : delta > 0
  · rw [timeStep_eq_of_pos hd] at he
    split_ifs at he with h1 h2
    · rcases List.mem_append.mp he with h | h
      · exact Or.inl h
      · right
        obtain ⟨c, hc, heq⟩ := List.mem_map.mp h
        exact ⟨c, hc, heq.symm⟩
    · exact Or.inl he
    · rcases List.mem_append.mp he with h | h
      · exact Or.inl (List.mem_of_mem_dropLast h)
      · right
        obtain ⟨c, hc, heq⟩ := List.mem_map.mp h
        exact ⟨c, hc, heq.symm⟩
  · rw [timeStep_eq_of_not_pos hd] at he
    exact Or.inl he

/-- The time-accumulation step only adds `TimeShift` events whose payloads lie
in `[0, 99]`. -/
theorem timeStep_tsBounded {tps : Nat} {events : List PerformanceEvent} {prev delta : Nat}
    (h3 : tps < 2 ^ 32)
    (hev : ∀ v : Int, PerformanceEvent.TimeShift v ∈ events → 0 ≤ v ∧ v ≤ 99) :
    ∀ v : Int, PerformanceEvent.TimeShift v ∈ (timeStep tps events prev delta).1 →
      0 ≤ v ∧ v ≤ 99 := by
  intro v hv
  rcases mem_timeStep hv with h | ⟨c, hc, heq⟩
  · exact hev v h
  · obtain ⟨hc1, hc2⟩ := mem_chunks_bounds hc
    have hb : ticks_to_timeshift c tps ≤ 99 := ticks_to_timeshift_le hc1 hc2 h3
    have hvv : v = ((ticks_to_timeshift c tps : Nat) : Int) := by
      rw [← i16_of_u32_small hb]
      injection heq
    rw [hvv]
    omega

theorem pedalRelease_no_timeshift {v : Int} :
    ∀ {notes : List Int} {ks : List Int},
      PerformanceEvent.TimeShift v ∉ (pedalRelease notes ks).2 := by
  intro notes ks
  induction ks generalizing notes with
  | nil => simp [pedalRelease]
  | cons k rest ih =>
    simp only [pedalRelease]
    split_ifs with h
    · intro hmem
      rcases List.mem_cons.mp hmem with h' | h'
      · exact PerformanceEvent.noConfusion h'
      · exact ih h'
    · exact ih

/-- The message-dispatch step never emits a `TimeShift`. -/
theorem processMessage_no_timeshift {ord : List Int → List Int} {st : EncState}
    {kind : TrackEventKind} {v : Int} :
    PerformanceEvent.TimeShift v ∉ (processMessage ord st kind).2 := by
  cases kind with
  | Midi ch m =>
    cases m with
    | NoteOn key vel =>
      simp only [processMessage]
      split_ifs <;> simp
    | NoteOff key vel => simp [processMessage]
    | Controller c val =>
      simp only [processMessage]
      split_ifs with h1 h2
      · exact pedalRelease_no_timeshift
      · simp
      · simp
    | OtherMessage => simp [processMessage]
  | MetaTempo x => simp [processMessage]
  | OtherKind => simp [processMessage]

theorem foldl_tsBounded {ord : List Int → List Int} {tps : Nat}
    (h3 : tps < 2 ^ 32) :
    ∀ (track : List TrackEvent) (st : LoopState),
      (∀ v : Int, PerformanceEvent.TimeShift v ∈ st.events → 0 ≤ v ∧ v ≤ 99) →
      ∀ v : Int,
        PerformanceEvent.TimeShift v ∈ (track.foldl (stepEvent ord tps) st).events →
        0 ≤ v ∧ v ≤ 99 := by
  intro track
  induction track with
  | nil => exact fun st h => h
  | cons e rest ih =>
    intro st hst
    apply ih
    intro v hv
    simp only [stepEvent] at hv
    rcases List.mem_append.mp hv with h | h
    · exact timeStep_tsBounded h3 hst v h
    · exact absurd h processMessage_no_timeshift

/-- Claim C6.  For every `ticks_per_sec ≥ 1` (a `u32`, so `< 2^32`) and every
chunk with `1 ≤ chunk ≤ ticks_per_sec`, the bucket
`(chunk * 100 - 50) / ticks_per_sec` computed with truncating (and wrapping)
unsigned `u32` arithmetic lies in [0, 99] (the lower bound is inherent to
`Nat`); hence every `TimeShift` event the encoder emits carries a payload in
[0, 99]. -/
theorem claim6_timeshift_bucket_range :
    (∀ tps c : Nat, 1 ≤ c → c ≤ tps → tps < 2 ^ 32 →
      ticks_to_timeshift c tps ≤ 99) ∧
    (∀ (ord : List Int → List Int) (tps : Nat) (track : List TrackEvent) (v : Int),
      1 ≤ tps → tps < 2 ^ 32 →
      PerformanceEvent.TimeShift v ∈ (encodeTrack ord tps track).events →
      0 ≤ v ∧ v ≤ 99) := by
  constructor
  · exact fun tps c hc1 hc2 h3 => ticks_to_timeshift_le hc1 hc2 h3
  · intro ord tps track v h1 h3 hv
    exact foldl_tsBounded h3 track initState (by simp [initState]) v hv

/-- Closed witness for `claim6_timeshift_bucket_range`: the spec's own example
`ticks_per_sec = 960`, a single delta of 960 ticks, bucket 99. -/
theorem claim6_timeshift_bucket_range_witness :
    ticks_to_timeshift 960 960 ≤ 99 ∧ (0 ≤ (99 : Int) ∧ (99 : Int) ≤ 99) := by
  constructor
  · exact claim6_timeshift_bucket_range.1 960 960 (by decide) (by decide) (by norm_num)
  · apply claim6_timeshift_bucket_range.2 id 960 [⟨960, .OtherKind⟩] 99 (by decide) (by norm_num)
    have hev : (encodeTrack id 960 [⟨960, .OtherKind⟩]).events
        = [PerformanceEvent.TimeShift 99] := by
      simp [encodeTrack, stepEvent, timeStep, chunks, initState, ticks_to_timeshift,
        i16_of_u32, processMessage]
    rw [hev]
    exact List.mem_singleton.mpr rfl

/-! ## Hash-set model lemmas -/

theorem contains_true_iff {l : List Int} {k : Int} : l.contains k = true ↔ k ∈ l :=
  List.elem_iff

theorem hsInsert_fst_mem {l : List Int} {k : Int} (h : k ∈ l) : (hsInsert l k).1 = l := by
  unfold hsInsert
  rw [if_pos (contains_true_iff.mpr h)]

theorem hsInsert_fst_not_mem {l : List Int} {k : Int} (h : k ∉ l) :
    (hsInsert l k).1 = l ++ [k] := by
  unfold hsInsert
  rw [if_neg fun hc => h (contains_true_iff.mp hc)]

theorem mem_hsInsert_fst {l : List Int} {k x : Int} :
    x ∈ (hsInsert l k).1 ↔ x ∈ l ∨ x = k := by
  by_cases h : k ∈ l
  · rw [hsInsert_fst_mem h]
    constructor
    · exact Or.inl
    · rintro (hx | rfl)
      · exact hx
      · exact h
  · rw [hsInsert_fst_not_mem h]
    simp

theorem nodup_hsInsert_fst {l : List Int} {k : Int} (h : l.Nodup) : (hsInsert l k).1.Nodup := by
  by_cases hk : k ∈ l
  · rw [hsInsert_fst_mem hk]; exact h
  · rw [hsInsert_fst_not_mem hk]
    exact h.append (List.nodup_singleton k)
      (fun x hx hxk => hk (by rw [List.mem_singleton.mp hxk] at hx; exact hx))

theorem hsRemove_fst (l : List Int) (k : Int) :
    (hsRemove l k).1 = l.filter (fun x => x != k) := by
  unfold hsRemove
  split_ifs with h
  · rfl
  · have hk : k ∉ l := fun hm => h (contains_true_iff.mpr hm)
    exact (List.filter_eq_self.mpr fun a ha =>
      bne_iff_ne.mpr fun he => hk (by rw [he] at ha; exact ha)).symm

theorem hsRemove_snd (l : List Int) (k : Int) : (hsRemove l k).2 = l.contains k := by
  unfold hsRemove
  split_ifs with h
  · exact h.symm
  · cases hb : l.contains k with
    | false => rfl
    | true => exact absurd hb h

theorem mem_hsRemove_fst {l : List Int} {k x : Int} :
    x ∈ (hsRemove l k).1 ↔ x ∈ l ∧ x ≠ k := by
  rw [hsRemove_fst, List.mem_filter]
  simp

theorem nodup_hsRemove_fst {l : List Int} {k : Int} (h : l.Nodup) : (hsRemove l k).1.Nodup := by
  rw [hsRemove_fst]
  exact h.filter _

theorem pedalRelease_fst_cons (notes : List Int) (k : Int) (ks : List Int) :
    (pedalRelease notes (k :: ks)).1 = (pedalRelease (hsRemove notes k).1 ks).1 := by
  simp only [pedalRelease]
  split_ifs <;> rfl

theorem mem_pedalRelease_fst {ks : List Int} :
    ∀ {notes : List Int} {x : Int}, x ∈ (pedalRelease notes ks).1 ↔ x ∈ notes ∧ x ∉ ks := by
  induction ks with
  | nil => intro notes x; simp [pedalRelease]
  | cons k ks ih =>
    intro notes x
    rw [pedalRelease_fst_cons, ih, mem_hsRemove_fst]
    simp only [List.mem_cons]
    constructor
    · rintro ⟨⟨hx, hk⟩, hks⟩
      exact ⟨hx, fun hc => hc.elim hk hks⟩
    · rintro ⟨hx, hn⟩
      exact ⟨⟨hx, fun he => hn (Or.inl he)⟩, fun he => hn (Or.inr he)⟩

theorem nodup_pedalRelease_fst {ks : List Int} :
    ∀ {notes : List Int}, notes.Nodup → (pedalRelease notes ks).1.Nodup := by
  induction ks with
  | nil => exact fun h => h
  | cons k ks ih =>
    intro notes h
    rw [pedalRelease_fst_cons]
    exact ih (nodup_hsRemove_fst h)

/-! ## Claim 5: sustained_notes ⊆ notes_on, and empty when the pedal is up -/

/-- The state invariant of the encoder: both hash sets are duplicate-free,
every sustained key is a sounding key, and nothing is sustained while the
pedal is up. -/
def StInv (st : EncState) : Prop :=
  st.sustained_notes.Nodup ∧ st.notes_on.Nodup ∧
  (∀ k, k ∈ st.sustained_notes → k ∈ st.notes_on) ∧
  (st.is_pedal_down = false → st.sustained_notes = [])

theorem processMessage_StInv {ord : List Int → List Int} {st : EncState}
    {kind : TrackEventKind} (h : StInv st) : StInv (processMessage ord st kind).1 := by
  obtain ⟨hnds, hndn, hsub, hped⟩ := h
  cases kind with
  | MetaTempo x => exact ⟨hnds, hndn, hsub, hped⟩
  | OtherKind => exact ⟨hnds, hndn, hsub, hped⟩
  | Midi ch m =>
    cases m with
    | NoteOff key vel => exact ⟨hnds, hndn, hsub, hped⟩
    | OtherMessage => exact ⟨hnds, hndn, hsub, hped⟩
    | NoteOn key vel =>
      simp only [processMessage]
      split_ifs with h1 h2 h3 h4 h5
      · -- velocity 0, pedal down and key sounding: key becomes sustained
        rw [Bool.and_eq_true] at h2
        obtain ⟨hp, hc⟩ := h2
        refine ⟨nodup_hsInsert_fst hnds, hndn, ?_, ?_⟩
        · intro k hk
          rcases mem_hsInsert_fst.mp hk with hk | rfl
          · exact hsub k hk
          · exact contains_true_iff.mp hc
        · intro hfalse
          rw [hp] at hfalse
          exact absurd hfalse (by simp)
      · -- velocity 0, key released for real
        refine ⟨hnds, nodup_hsRemove_fst hndn, ?_, hped⟩
        intro k hk
        cases hpd : st.is_pedal_down with
        | false => rw [hped hpd] at hk; exact absurd hk (List.not_mem_nil k)
        | true =>
          have hc : st.notes_on.contains (u7_to_i16 key) = false := by
            cases hcc : st.notes_on.contains (u7_to_i16 key) with
            | false => rfl
            | true => exact absurd (by rw [hpd, hcc]; rfl) h2
          rw [hsRemove_snd, hc] at h3
          exact absurd h3 (by simp)
      · -- velocity 0, key was not sounding: nothing happens
        refine ⟨hnds, nodup_hsRemove_fst hndn, ?_, hped⟩
        intro k hk
        cases hpd : st.is_pedal_down with
        | false => rw [hped hpd] at hk; exact absurd hk (List.not_mem_nil k)
        | true =>
          have hc : st.notes_on.contains (u7_to_i16 key) = false := by
            cases hcc : st.notes_on.contains (u7_to_i16 key) with
            | false => rfl
            | true => exact absurd (by rw [hpd, hcc]; rfl) h2
          refine mem_hsRemove_fst.mpr ⟨hsub k hk, fun he => ?_⟩
          rw [he] at hk
          exact absurd (contains_true_iff.mpr (hsub _ hk)) (by rw [hc]; simp)
      · -- positive velocity ending a sustained hold
        refine ⟨nodup_hsRemove_fst hnds, hndn, ?_, ?_⟩
        · intro k hk
          exact hsub k (mem_hsRemove_fst.mp hk).1
        · intro hpd
          rw [hped hpd]
          simp [hsRemove]
      · -- positive velocity, fresh key
        refine ⟨hnds, nodup_hsInsert_fst hndn, ?_, hped⟩
        intro k hk
        exact mem_hsInsert_fst.mpr (Or.inl (hsub k hk))
      · -- positive velocity, key already sounding: ignored
        refine ⟨hnds, nodup_hsInsert_fst hndn, ?_, hped⟩
        intro k hk
        exact mem_hsInsert_fst.mpr (Or.inl (hsub k hk))
    | Controller c value =>
      simp only [processMessage]
      split_ifs with hc64 hrel
      · -- pedal released: sustained notes flushed
        refine ⟨List.nodup_nil, nodup_pedalRelease_fst hndn, ?_, fun _ => rfl⟩
        intro k hk
        exact absurd hk (List.not_mem_nil k)
      · -- controller 64 without a release: only the pedal flag changes
        refine ⟨hnds, hndn, hsub, ?_⟩
        intro hval
        have hv64 : value < 64 := by simpa using hval
        have hpf : st.is_pedal_down = false := by
          by_contra hp
          rw [Bool.not_eq_false] at hp
          exact hrel (by simp [hp, hv64])
        exact hped hpf
      · exact ⟨hnds, hndn, hsub, hped⟩

theorem encodeTrack_StInv (ord : List Int → List Int) (tps : Nat)
    (track : List TrackEvent) : StInv (encodeTrack ord tps track).enc := by
  suffices h : ∀ st : LoopState, StInv st.enc →
      StInv ((track.foldl (stepEvent ord tps) st)).enc from
    h initState ⟨List.nodup_nil, List.nodup_nil, fun k hk => absurd hk (List.not_mem_nil k),
      fun _ => rfl⟩
  induction track with
  | nil => exact fun st h => h
  | cons e rest ih => exact fun st h => ih _ (processMessage_StInv h)

/-- Claim C5.  For every iteration order, every tempo and every input stream,
the final encoder state satisfies `sustained_notes ⊆ notes_on`, and whenever
`is_pedal_down` is false, `sustained_notes` is empty.  Since every prefix of a
stream is itself a stream, this holds after every processed message. -/
theorem claim5_state_invariant (ord : List Int → List Int) (tps : Nat)
    (track : List TrackEvent) :
    (∀ k, k ∈ (encodeTrack ord tps track).enc.sustained_notes →
      k ∈ (encodeTrack ord tps track).enc.notes_on) ∧
    ((encodeTrack ord tps track).enc.is_pedal_down = false →
      (encodeTrack ord tps track).enc.sustained_notes = []) :=
  ⟨(encodeTrack_StInv ord tps track).2.2.1, (encodeTrack_StInv ord tps track).2.2.2⟩

/-- Closed witness for `claim5_state_invariant` on a concrete stream that
sustains key 60 (pedal down) and on one that leaves the pedal up. -/
theorem claim5_state_invariant_witness :
    60 ∈ (encodeTrack id 1 [⟨0, .Midi 0 (.Controller 64 127)⟩, ⟨0, .Midi 0 (.NoteOn 60 80)⟩,
      ⟨0, .Midi 0 (.NoteOn 60 0)⟩]).enc.notes_on ∧
    (encodeTrack id 1 [⟨0, .Midi 0 (.NoteOn 60 80)⟩]).enc.sustained_notes = [] :=
  ⟨(claim5_state_invariant id 1 _).1 60 (by decide), (claim5_state_invariant id 1 _).2 (by decide)⟩

/-! ## Claim 10: the in-place TimeShift overwrite is safe -/

/-- Loop invariant for claim 10: whenever `previous_ticks` is nonzero, the
output list ends in a `TimeShift` event. -/
def PrevInv (st : LoopState) : Prop :=
  st.previous_ticks ≠ 0 → ∃ v, st.events.getLast? = some (.TimeShift v)

theorem timeStep_PrevInv {tps : Nat} {events : List PerformanceEvent} {prev delta : Nat}
    (hinv : prev ≠ 0 → ∃ v, events.getLast? = some (.TimeShift v))
    (h2 : (timeStep tps events prev delta).2 ≠ 0) :
    ∃ v, (timeStep tps events prev delta).1.getLast? = some (.TimeShift v) := by
  by_cases hd : delta > 0
  · rw [timeStep_eq_of_pos hd] at h2 ⊢
    dsimp only at h2 ⊢
    have hne : chunks tps ((delta + prev) % 2 ^ 32) ≠ [] := by
      intro h
      rw [h] at h2
      simp at h2
    have hsne : ¬ (tsShifts tps ((delta + prev) % 2 ^ 32)).isEmpty = true := by
      rw [List.isEmpty_iff]
      simp only [tsShifts, List.map_eq_nil_iff]
      exact hne
    obtain ⟨c, hc⟩ : ∃ c, (chunks tps ((delta + prev) % 2 ^ 32)).getLast? = some c := by
      cases hx : (chunks tps ((delta + prev) % 2 ^ 32)).getLast? with
      | none => exact absurd (List.getLast?_eq_none_iff.mp hx) hne
      | some c => exact ⟨c, rfl⟩
    have hlast : (tsShifts tps ((delta + prev) % 2 ^ 32)).getLast?
        = some (.TimeShift (i16_of_u32 (ticks_to_timeshift c tps))) := by
      unfold tsShifts
      rw [List.getLast?_map, hc]
      rfl
    by_cases hp : prev = 0
    · rw [if_pos hp, List.getLast?_append, hlast]
      exact ⟨_, rfl⟩
    · rw [if_neg hp, if_neg hsne, List.getLast?_append, hlast]
      exact ⟨_, rfl⟩
  · rw [timeStep_eq_of_not_pos hd] at h2 ⊢
    exact hinv h2

theorem stepEvent_PrevInv {ord : List Int → List Int} {tps : Nat} {st : LoopState}
    {e : TrackEvent} (h : PrevInv st) : PrevInv (stepEvent ord tps st e) := by
  intro h2
  simp only [stepEvent] at h2 ⊢
  by_cases hb : (processMessage ord st.enc e.kind).2 = []
  · rw [hb, List.append_nil] at h2 ⊢
    rw [if_neg (by simp)] at h2
    exact timeStep_PrevInv h h2
  · rw [if_pos] at h2
    · exact absurd rfl h2
    · rw [List.length_append]
      have := List.length_pos.mpr hb
      omega

theorem encodeTrack_PrevInv (ord : List Int → List Int) (tps : Nat)
    (track : List TrackEvent) : PrevInv (encodeTrack ord tps track) := by
  suffices h : ∀ st : LoopState, PrevInv st →
      PrevInv (track.foldl (stepEvent ord tps) st) from
    h initState (fun h2 => absurd rfl h2)
  induction track with
  | nil => exact fun st h => h
  | cons e rest ih => exact fun st h => ih _ (stepEvent_PrevInv h)

/-- Claim C10.  For every iteration order, tempo and input stream, whenever
`previous_ticks` is nonzero (the situation in which a later positive-delta
message overwrites `events[events.len() - 1]` in place), the events list is
non-empty and its last element is a `TimeShift`.  Hence the index
`events.len() - 1` never underflows and the overwrite never replaces a
`NoteOn`, `NoteOff` or `Velocity` event.  Since every prefix of a stream is
itself a stream, this holds at every point of the loop. -/
theorem claim10_overwrite_safety (ord : List Int → List Int) (tps : Nat)
    (track : List TrackEvent)
    (h : (encodeTrack ord tps track).previous_ticks ≠ 0) :
    (encodeTrack ord tps track).events ≠ [] ∧
    ∃ v, (encodeTrack ord tps track).events.getLast? = some (.TimeShift v) := by
  obtain ⟨v, hv⟩ := encodeTrack_PrevInv ord tps track h
  refine ⟨?_, v, hv⟩
  intro hnil
  rw [hnil] at hv
  exact Option.noConfusion hv

/-- Closed witness for `claim10_overwrite_safety` after a single pure-delay
event of 960 ticks at `ticks_per_sec = 960`. -/
theorem claim10_overwrite_safety_witness :
    (encodeTrack id 960 [⟨960, .OtherKind⟩]).events ≠ [] ∧
    ∃ v, (encodeTrack id 960 [⟨960, .OtherKind⟩]).events.getLast?
      = some (.TimeShift v) :=
  claim10_overwrite_safety id 960 [⟨960, .OtherKind⟩] (by
    simp [encodeTrack, stepEvent, timeStep, chunks, processMessage, initState])

/-! ## Claim 7: the track linearizer -/

/-- Mathematical (non-wrapping) absolute tick positions of a track starting at
time `t0`: each event paired with the prefix sum of the deltas up to and
including it.  Used to state claim 7. -/
def absTimes (t0 : Nat) : List TrackEvent → List (TrackEventKind × Nat)
  | [] => []
  | e :: es => (e.kind, t0 + e.delta) :: absTimes (t0 + e.delta) es

theorem redelta_length : ∀ (l : List (TrackEvent × Nat)) (p : Nat),
    (redelta p l).length = l.length := by
  intro l
  induction l with
  | nil => intro p; rfl
  | cons q rest ih =>
    intro p
    obtain ⟨e, t⟩ := q
    simp only [redelta, List.length_cons, ih]

theorem redelta_map_kind : ∀ (l : List (TrackEvent × Nat)) (p : Nat),
    (redelta p l).map TrackEvent.kind = l.map (fun q => q.1.kind) := by
  intro l
  induction l with
  | nil => intro p; rfl
  | cons q rest ih =>
    intro p
    obtain ⟨e, t⟩ := q
    simp only [redelta, List.map_cons, ih]

theorem tagTrack_length : ∀ (tr : List TrackEvent) (s : Nat),
    (tagTrack s tr).length = tr.length := by
  intro tr
  induction tr with
  | nil => intro s; rfl
  | cons e es ih => intro s; simp only [tagTrack, List.length_cons, ih]

theorem tagTrack_map_kind : ∀ (tr : List TrackEvent) (s : Nat),
    (tagTrack s tr).map (fun q => q.1.kind) = tr.map TrackEvent.kind := by
  intro tr
  induction tr with
  | nil => intro s; rfl
  | cons e es ih => intro s; simp only [tagTrack, List.map_cons, ih]

/-- With no `u32` overflow, the tagging loop computes exact prefix sums. -/
theorem tagTrack_eq_absTimes : ∀ (tr : List TrackEvent) (s : Nat),
    s + (tr.map TrackEvent.delta).sum < 2 ^ 32 →
    (tagTrack s tr).map (fun q => (q.1.kind, q.2)) = absTimes s tr := by
  intro tr
  induction tr with
  | nil => intro s _; rfl
  | cons e es ih =>
    intro s h
    simp only [List.map_cons, List.sum_cons] at h
    have hmod : (s + e.delta) % 2 ^ 32 = s + e.delta := Nat.mod_eq_of_lt (by omega)
    simp only [tagTrack, absTimes, List.map_cons, hmod]
    exact congrArg (List.cons _) (ih (s + e.delta) (by omega))

theorem tagTrack_snd_ge : ∀ (tr : List TrackEvent) (s : Nat),
    s + (tr.map TrackEvent.delta).sum < 2 ^ 32 →
    ∀ q ∈ tagTrack s tr, s ≤ q.2 := by
  intro tr
  induction tr with
  | nil => intro s _ q hq; exact absurd hq (List.not_mem_nil q)
  | cons e es ih =>
    intro s h q hq
    simp only [List.map_cons, List.sum_cons] at h
    have hmod : (s + e.delta) % 2 ^ 32 = s + e.delta := Nat.mod_eq_of_lt (by omega)
    simp only [tagTrack, hmod, List.mem_cons] at hq
    rcases hq with rfl | hq
    · simp only []
      omega
    · have := ih (s + e.delta) (by omega) q hq
      omega

/-- With no `u32` overflow, the tags of one track are non-decreasing. -/
theorem tagTrack_pairwise : ∀ (tr : List TrackEvent) (s : Nat),
    s + (tr.map TrackEvent.delta).sum < 2 ^ 32 →
    (tagTrack s tr).Pairwise (fun a b => tickLE a b = true) := by
  intro tr
  induction tr with
  | nil => intro s _; exact List.Pairwise.nil
  | cons e es ih =>
    intro s h
    simp only [List.map_cons, List.sum_cons] at h
    have hmod : (s + e.delta) % 2 ^ 32 = s + e.delta := Nat.mod_eq_of_lt (by omega)
    simp only [tagTrack, hmod]
    refine List.pairwise_cons.mpr ⟨?_, ih (s + e.delta) (by omega)⟩
    intro q hq
    have := tagTrack_snd_ge es (s + e.delta) (by omega) q hq
    exact decide_eq_true (by simpa using this)

theorem tickLE_trans : ∀ (a b c : TrackEvent × Nat), tickLE a b → tickLE b c → tickLE a c := by
  intro a b c hab hbc
  simp only [tickLE, decide_eq_true_eq] at hab hbc ⊢
  omega

theorem tickLE_total : ∀ (a b : TrackEvent × Nat), tickLE a b || tickLE b a := by
  intro a b
  rcases Nat.le_total a.2 b.2 with h | h <;> simp [tickLE, h]

/-- Re-deriving deltas from a non-decreasing tag list and then prefix-summing
them recovers exactly the tags. -/
theorem absTimes_redelta : ∀ (l : List (TrackEvent × Nat)) (p : Nat),
    (∀ q ∈ l, p ≤ q.2) → l.Pairwise (fun a b : TrackEvent × Nat => a.2 ≤ b.2) →
    absTimes p (redelta p l) = l.map (fun q => (q.1.kind, q.2)) := by
  intro l
  induction l with
  | nil => intro p _ _; rfl
  | cons q rest ih =>
    intro p hp hpw
    obtain ⟨e, t⟩ := q
    have hpt : p ≤ t := hp (e, t) (List.mem_cons_self _ _)
    have ht : p + (t - p) = t := by omega
    simp only [redelta, absTimes, List.map_cons, ht]
    refine congrArg (List.cons _) (ih t ?_ (List.pairwise_cons.mp hpw).2)
    intro q hq
    exact (List.pairwise_cons.mp hpw).1 q hq

/-- Claim C7 counterexample.  The claim reads the reconstruction property as:
the sum of the deltas *of the events belonging to one original track* inside a
merged prefix equals that track's original absolute tick position.  With
track 0 = `[delta 10, NoteOn 1]` and track 1 = `[delta 5, NoteOn 2]`, the
merged stream is `[{delta 5, NoteOn 2}, {delta 5, NoteOn 1}]`: the only event
belonging to track 0 carries delta 5 (a *global* difference), while track 0's
original absolute position at its first event is 10.  (Summing the deltas of
*all* merged events up to that point, 5 + 5 = 10, is what actually holds —
see the amended theorem.) -/
theorem claim7_linearizer_counterexample :
    merge_parallel_tracks [[⟨10, .Midi 0 (.NoteOn 1 1)⟩], [⟨5, .Midi 0 (.NoteOn 2 2)⟩]]
      = [⟨5, .Midi 0 (.NoteOn 2 2)⟩, ⟨5, .Midi 0 (.NoteOn 1 1)⟩] ∧
    (((merge_parallel_tracks [[⟨10, .Midi 0 (.NoteOn 1 1)⟩], [⟨5, .Midi 0 (.NoteOn 2 2)⟩]]).filter
        (fun e => e.kind == .Midi 0 (.NoteOn 1 1))).map TrackEvent.delta).sum = 5 ∧
    absTimes 0 [⟨10, .Midi 0 (.NoteOn 1 1)⟩] = [(.Midi 0 (.NoteOn 1 1), 10)] ∧
    (5 : Nat) ≠ 10 := by
  have hm : merge_parallel_tracks [[⟨10, .Midi 0 (.NoteOn 1 1)⟩], [⟨5, .Midi 0 (.NoteOn 2 2)⟩]]
      = [⟨5, .Midi 0 (.NoteOn 2 2)⟩, ⟨5, .Midi 0 (.NoteOn 1 1)⟩] := by
    simp [merge_parallel_tracks, tagTrack, redelta, List.mergeSort, tickLE, List.merge]
  refine ⟨hm, ?_, by rfl, by decide⟩
  rw [hm]
  rfl

/-- Claim C7, amended.  For every list of parallel tracks whose total
durations do not overflow a `u32`, the merged stream has the same total event
count and the same multiset of message payloads as the inputs, and for every
original track, the sequence of its (kind, absolute-time) pairs — absolute
time being the prefix sum of *all* merged deltas up to that event, not just
the deltas of that track's own events — is a subsequence of the merged
stream's (kind, absolute-time) sequence.  In particular each track's internal
relative order is preserved and every event sits at its original absolute
tick. -/
theorem claim7_linearizer_amended (tracks : List (List TrackEvent))
    (hbound : ∀ tr ∈ tracks, (tr.map TrackEvent.delta).sum < 2 ^ 32) :
    (merge_parallel_tracks tracks).length = (tracks.map List.length).sum ∧
    ((merge_parallel_tracks tracks).map TrackEvent.kind).Perm
      ((tracks.flatten).map TrackEvent.kind) ∧
    ∀ tr ∈ tracks, (absTimes 0 tr).Sublist (absTimes 0 (merge_parallel_tracks tracks)) := by
  have hCdef : merge_parallel_tracks tracks
      = redelta 0 (((tracks.map (tagTrack 0)).flatten).mergeSort tickLE) := rfl
  have hSpw : (((tracks.map (tagTrack 0)).flatten).mergeSort tickLE).Pairwise
      (fun a b : TrackEvent × Nat => a.2 ≤ b.2) :=
    (List.sorted_mergeSort tickLE_trans tickLE_total
      ((tracks.map (tagTrack 0)).flatten)).imp (fun h => by
        simpa [tickLE] using h)
  refine ⟨?_, ?_, ?_⟩
  · rw [hCdef, redelta_length, List.length_mergeSort, List.length_flatten, List.map_map]
    exact congrArg List.sum (List.map_congr_left fun tr _ => tagTrack_length tr 0)
  · rw [hCdef, redelta_map_kind]
    refine ((List.mergeSort_perm ((tracks.map (tagTrack 0)).flatten) tickLE).map _).trans ?_
    rw [List.map_flatten, List.map_flatten, List.map_map]
    exact List.Perm.of_eq (congrArg List.flatten
      (List.map_congr_left fun tr _ => tagTrack_map_kind tr 0))
  · intro tr htr
    have hb : (0 : Nat) + (tr.map TrackEvent.delta).sum < 2 ^ 32 := by
      simpa using hbound tr htr
    have h1 : absTimes 0 tr = (tagTrack 0 tr).map (fun q => (q.1.kind, q.2)) :=
      (tagTrack_eq_absTimes tr 0 hb).symm
    have h2 : List.Sublist (tagTrack 0 tr) ((tracks.map (tagTrack 0)).flatten) :=
      List.sublist_flatten_of_mem (List.mem_map_of_mem (tagTrack 0) htr)
    have h3 : List.Sublist (tagTrack 0 tr)
        (((tracks.map (tagTrack 0)).flatten).mergeSort tickLE) :=
      List.sublist_mergeSort tickLE_trans tickLE_total (tagTrack_pairwise tr 0 hb) h2
    have h4 : absTimes 0 (merge_parallel_tracks tracks)
        = (((tracks.map (tagTrack 0)).flatten).mergeSort tickLE).map
            (fun q => (q.1.kind, q.2)) := by
      rw [hCdef]
      exact absTimes_redelta _ 0 (fun q _ => Nat.zero_le _) hSpw
    rw [h1, h4]
    exact h3.map _

/-- Closed witness for `claim7_linearizer_amended` on the counterexample's two
concrete tracks: track 0's event appears in the merged stream at its original
absolute time 10. -/
theorem claim7_linearizer_amended_witness :
    (absTimes 0 [(⟨10, .Midi 0 (.NoteOn 1 1)⟩ : TrackEvent)]).Sublist
      (absTimes 0 (merge_parallel_tracks
        [[⟨10, .Midi 0 (.NoteOn 1 1)⟩], [⟨5, .Midi 0 (.NoteOn 2 2)⟩]])) :=
  (claim7_linearizer_amended [[⟨10, .Midi 0 (.NoteOn 1 1)⟩], [⟨5, .Midi 0 (.NoteOn 2 2)⟩]]
    (by
      intro tr htr
      simp only [List.mem_cons, List.not_mem_nil, or_false] at htr
      rcases htr with rfl | rfl <;> decide)).2.2
    [⟨10, .Midi 0 (.NoteOn 1 1)⟩] (List.mem_cons_self _ _)

/-! ## Claim 8: determinism and hash-set iteration order -/

theorem contains_eq (l : List Int) (k : Int) : l.contains k = decide (k ∈ l) := by
  cases hb : l.contains k with
  | true => exact (decide_eq_true (contains_true_iff.mp hb)).symm
  | false =>
    cases hd : decide (k ∈ l) with
    | false => rfl
    | true => exact absurd (contains_true_iff.mpr (of_decide_eq_true hd)) (by rw [hb]; simp)

/-- The pedal-release loop removes exactly the iterated keys from `notes_on`,
whatever order they are iterated in. -/
theorem pedalRelease_fst_filter : ∀ (ks : List Int) (notes : List Int),
    (pedalRelease notes ks).1 = notes.filter (fun x => !(ks.contains x)) := by
  intro ks
  induction ks with
  | nil =>
    intro notes
    simp [pedalRelease]
  | cons k ks ih =>
    intro notes
    rw [pedalRelease_fst_cons, ih, hsRemove_fst, List.filter_filter]
    refine List.filter_congr ?_
    intro x _
    simp only [List.contains_cons, Bool.not_or, bne]
    cases hxk : x == k <;> cases hks : ks.contains x <;> rfl

/-- The pedal-release loop emits one `NoteOff` per iterated key that is
currently in `notes_on`, in iteration order (keys assumed distinct, as they
are in a hash set). -/
theorem pedalRelease_snd : ∀ (ks : List Int) (notes : List Int), ks.Nodup →
    (pedalRelease notes ks).2
      = (ks.filter (fun k => notes.contains k)).map PerformanceEvent.NoteOff := by
  intro ks
  induction ks with
  | nil => intro notes _; rfl
  | cons k ks ih =>
    intro notes hnd
    have hknotin : k ∉ ks := (List.nodup_cons.mp hnd).1
    have hndks : ks.Nodup := (List.nodup_cons.mp hnd).2
    have hpred : ∀ j ∈ ks, ((hsRemove notes k).1).contains j = notes.contains j := by
      intro j hj
      have hjk : j ≠ k := fun he => hknotin (he ▸ hj)
      rw [hsRemove_fst, contains_eq, contains_eq]
      refine decide_eq_decide.mpr ⟨fun h => (List.mem_filter.mp h).1, fun h => ?_⟩
      exact List.mem_filter.mpr ⟨h, bne_iff_ne.mpr hjk⟩
    by_cases hk : k ∈ notes
    · have h2 : (hsRemove notes k).2 = true := by
        rw [hsRemove_snd]
        exact contains_true_iff.mpr hk
      simp only [pedalRelease, h2, if_true]
      rw [ih _ hndks, List.filter_congr hpred,
        List.filter_cons_of_pos (contains_true_iff.mpr hk), List.map_cons]
    · have h2 : (hsRemove notes k).2 = false := by
        rw [hsRemove_snd, contains_eq]
        exact decide_eq_false hk
      have hr1 : (hsRemove notes k).1 = notes := by
        unfold hsRemove
        rw [if_neg fun hc => hk (contains_true_iff.mp hc)]
      simp only [pedalRelease, h2, Bool.false_eq_true, if_false]
      rw [hr1, ih _ hndks,
        List.filter_cons_of_neg (by rw [contains_eq]; simp [hk])]

/-- The message-dispatch step depends on the hash-set iteration order only up
to a permutation of the emitted pedal-release block: with the same input
state, two permutation-valid iteration orders give the same output state and
permuted event blocks. -/
theorem processMessage_ord_eq {ord1 ord2 : List Int → List Int} {st : EncState}
    {kind : TrackEventKind}
    (h1 : ∀ l, (ord1 l).Perm l) (h2 : ∀ l, (ord2 l).Perm l)
    (hnd : st.sustained_notes.Nodup) :
    (processMessage ord1 st kind).1 = (processMessage ord2 st kind).1 ∧
    ((processMessage ord1 st kind).2).Perm ((processMessage ord2 st kind).2) := by
  cases kind with
  | MetaTempo x => exact ⟨rfl, List.Perm.refl _⟩
  | OtherKind => exact ⟨rfl, List.Perm.refl _⟩
  | Midi ch m =>
    cases m with
    | NoteOn key vel => exact ⟨rfl, List.Perm.refl _⟩
    | NoteOff key vel => exact ⟨rfl, List.Perm.refl _⟩
    | OtherMessage => exact ⟨rfl, List.Perm.refl _⟩
    | Controller controller value =>
      by_cases hc : (controller == 64) = true
      · by_cases hrel : (st.is_pedal_down && decide (value < 64)) = true
        · have hperm12 : (ord1 st.sustained_notes).Perm (ord2 st.sustained_notes) :=
            (h1 _).trans (h2 _).symm
          have hnd1 : (ord1 st.sustained_notes).Nodup := ((h1 _).nodup_iff).mpr hnd
          have hcont : ∀ x, (ord1 st.sustained_notes).contains x
              = (ord2 st.sustained_notes).contains x := by
            intro x
            rw [contains_eq, contains_eq]
            exact decide_eq_decide.mpr hperm12.mem_iff
          have hfst : (pedalRelease st.notes_on (ord1 st.sustained_notes)).1
              = (pedalRelease st.notes_on (ord2 st.sustained_notes)).1 := by
            rw [pedalRelease_fst_filter, pedalRelease_fst_filter]
            exact List.filter_congr fun x _ => by rw [hcont x]
          have hsnd : ((pedalRelease st.notes_on (ord1 st.sustained_notes)).2).Perm
              ((pedalRelease st.notes_on (ord2 st.sustained_notes)).2) := by
            rw [pedalRelease_snd _ _ hnd1,
              pedalRelease_snd _ _ (((h2 _).nodup_iff).mpr hnd)]
            exact (hperm12.filter _).map _
          simp only [processMessage, hc, hrel, if_true]
          exact ⟨by rw [hfst], hsnd⟩
        · simp only [processMessage, hc, hrel, if_true, if_false]
          exact ⟨rfl, List.Perm.refl _⟩
      · simp only [processMessage, hc, if_false]
        exact ⟨rfl, List.Perm.refl _⟩

/-- Relation between two encoder runs that differ only in the hash-set
iteration order: equal encoder state and `previous_ticks`, permuted event
lists, and — while a pending time merge is active — permuted all-but-last
event lists (the next overwrite discards the last element of each run). -/
def OrdRel (s1 s2 : LoopState) : Prop :=
  s1.enc = s2.enc ∧ s1.previous_ticks = s2.previous_ticks ∧
  s1.events.Perm s2.events ∧
  (s1.previous_ticks ≠ 0 → (s1.events.dropLast).Perm (s2.events.dropLast))

theorem timeStep_OrdRel {tps delta prev : Nat} {e1 e2 : List PerformanceEvent}
    (hperm : e1.Perm e2) (hdrop : prev ≠ 0 → (e1.dropLast).Perm (e2.dropLast)) :
    (timeStep tps e1 prev delta).2 = (timeStep tps e2 prev delta).2 ∧
    ((timeStep tps e1 prev delta).1).Perm ((timeStep tps e2 prev delta).1) ∧
    ((timeStep tps e1 prev delta).2 ≠ 0 →
      ((timeStep tps e1 prev delta).1.dropLast).Perm
        ((timeStep tps e2 prev delta).1.dropLast)) := by
  by_cases hd : delta > 0
  · rw [timeStep_eq_of_pos hd, timeStep_eq_of_pos hd]
    dsimp only
    refine ⟨rfl, ?_, ?_⟩
    · by_cases hp : prev = 0
      · rw [if_pos hp, if_pos hp]
        exact hperm.append_right _
      · rw [if_neg hp, if_neg hp]
        by_cases hemp : (tsShifts tps ((delta + prev) % 2 ^ 32)).isEmpty = true
        · rw [if_pos hemp, if_pos hemp]
          exact hperm
        · rw [if_neg hemp, if_neg hemp]
          exact (hdrop hp).append_right _
    · intro h2
      have hcs : chunks tps ((delta + prev) % 2 ^ 32) ≠ [] := by
        intro h
        rw [h] at h2
        simp at h2
      have hshne : tsShifts tps ((delta + prev) % 2 ^ 32) ≠ [] := by
        simp only [tsShifts, ne_eq, List.map_eq_nil_iff]
        exact hcs
      have hnemp : ¬ (tsShifts tps ((delta + prev) % 2 ^ 32)).isEmpty = true := by
        rw [List.isEmpty_iff]
        exact hshne
      by_cases hp : prev = 0
      · rw [if_pos hp, if_pos hp, List.dropLast_append_of_ne_nil _ hshne,
          List.dropLast_append_of_ne_nil _ hshne]
        exact hperm.append_right _
      · rw [if_neg hp, if_neg hp, if_neg hnemp, if_neg hnemp,
          List.dropLast_append_of_ne_nil _ hshne, List.dropLast_append_of_ne_nil _ hshne]
        exact (hdrop hp).append_right _
  · rw [timeStep_eq_of_not_pos hd, timeStep_eq_of_not_pos hd]
    exact ⟨rfl, hperm, hdrop⟩

theorem stepEvent_OrdRel {ord1 ord2 : List Int → List Int} {tps : Nat}
    {s1 s2 : LoopState} {e : TrackEvent}
    (h1 : ∀ l, (ord1 l).Perm l) (h2 : ∀ l, (ord2 l).Perm l)
    (hs : StInv s1.enc) (hR : OrdRel s1 s2) :
    OrdRel (stepEvent ord1 tps s1 e) (stepEvent ord2 tps s2 e) := by
  obtain ⟨henc, hprev, hperm, hdrop⟩ := hR
  obtain ⟨ht2, htperm, htdrop⟩ :=
    @timeStep_OrdRel tps e.delta s1.previous_ticks s1.events s2.events hperm hdrop
  obtain ⟨hpm1, hpm2⟩ := processMessage_ord_eq h1 h2 hs.1
  simp only [stepEvent]
  rw [← henc, ← hprev]
  have hlen : (processMessage ord1 s1.enc e.kind).2.length
      = (processMessage ord2 s1.enc e.kind).2.length := hpm2.length_eq
  have hlent : (timeStep tps s1.events s1.previous_ticks e.delta).1.length
      = (timeStep tps s2.events s1.previous_ticks e.delta).1.length := htperm.length_eq
  refine ⟨hpm1, ?_, ?_, ?_⟩
  · rw [ht2]
    simp only [List.length_append, hlen, hlent]
  · exact htperm.append hpm2
  · intro hne
    by_cases hb : (processMessage ord1 s1.enc e.kind).2 = []
    · have hb2 : (processMessage ord2 s1.enc e.kind).2 = [] :=
        List.eq_nil_of_length_eq_zero (by rw [← hlen, hb]; rfl)
      rw [hb, hb2, List.append_nil, List.append_nil]
      rw [hb, List.append_nil] at hne
      rw [if_neg (by omega)] at hne
      exact htdrop hne
    · rw [if_pos] at hne
      · exact absurd rfl hne
      · rw [List.length_append]
        have := List.length_pos.mpr hb
        omega

theorem foldl_OrdRel {ord1 ord2 : List Int → List Int} (tps : Nat)
    (h1 : ∀ l, (ord1 l).Perm l) (h2 : ∀ l, (ord2 l).Perm l) :
    ∀ (track : List TrackEvent) (s1 s2 : LoopState), StInv s1.enc → OrdRel s1 s2 →
      OrdRel (track.foldl (stepEvent ord1 tps) s1) (track.foldl (stepEvent ord2 tps) s2) := by
  intro track
  induction track with
  | nil => exact fun s1 s2 _ hR => hR
  | cons e rest ih =>
    intro s1 s2 hs hR
    exact ih _ _ (processMessage_StInv hs) (stepEvent_OrdRel h1 h2 hs hR)

/-- Claim C8, amended.  For a fixed hash-set iteration order the encoder is a
function of the stream and tempo, so two runs with the same order agree; but
the `NoteOff` block emitted on a pedal release follows the `HashSet` iteration
order, which Rust does not fix across runs.  For any two permutation-valid
iteration orders, the two runs produce the same final encoder state and the
same `previous_ticks`, and their event sequences are permutations of each
other (they can differ only in the relative order of the `NoteOff` events
inside each pedal-release block). -/
theorem claim8_determinism_amended (ord1 ord2 : List Int → List Int) (tps : Nat)
    (track : List TrackEvent)
    (h1 : ∀ l, (ord1 l).Perm l) (h2 : ∀ l, (ord2 l).Perm l) :
    (encodeTrack ord1 tps track).enc = (encodeTrack ord2 tps track).enc ∧
    (encodeTrack ord1 tps track).previous_ticks
      = (encodeTrack ord2 tps track).previous_ticks ∧
    ((encodeTrack ord1 tps track).events).Perm ((encodeTrack ord2 tps track).events) := by
  have h := foldl_OrdRel tps h1 h2 track initState initState
    ⟨List.nodup_nil, List.nodup_nil, fun k hk => absurd hk (List.not_mem_nil k), fun _ => rfl⟩
    ⟨rfl, rfl, List.Perm.refl _, fun hne => absurd rfl hne⟩
  exact ⟨h.1, h.2.1, h.2.2.1⟩

/-- Claim C8 counterexample.  The claim says any two runs of the encoder on
the same input produce the identical event sequence, including the order of
the `NoteOff` events emitted on pedal release.  The pedal-release loop
iterates a `std::collections::HashSet`, whose iteration order is randomly
seeded per run; modelling the iteration order as a parameter, the identity
order and the reversed order (both permutations of the set) emit the two
sustained `NoteOff`s in opposite orders on the same input stream. -/
theorem claim8_determinism_counterexample :
    (encodeTrack id 7 [⟨0, .Midi 0 (.Controller 64 127)⟩, ⟨0, .Midi 0 (.NoteOn 60 80)⟩,
        ⟨0, .Midi 0 (.NoteOn 62 80)⟩, ⟨0, .Midi 0 (.NoteOn 60 0)⟩, ⟨0, .Midi 0 (.NoteOn 62 0)⟩,
        ⟨0, .Midi 0 (.Controller 64 0)⟩]).events
      = [.Velocity 80, .NoteOn 60, .Velocity 80, .NoteOn 62, .NoteOff 60, .NoteOff 62] ∧
    (encodeTrack List.reverse 7 [⟨0, .Midi 0 (.Controller 64 127)⟩, ⟨0, .Midi 0 (.NoteOn 60 80)⟩,
        ⟨0, .Midi 0 (.NoteOn 62 80)⟩, ⟨0, .Midi 0 (.NoteOn 60 0)⟩, ⟨0, .Midi 0 (.NoteOn 62 0)⟩,
        ⟨0, .Midi 0 (.Controller 64 0)⟩]).events
      = [.Velocity 80, .NoteOn 60, .Velocity 80, .NoteOn 62, .NoteOff 62, .NoteOff 60] ∧
    (encodeTrack id 7 [⟨0, .Midi 0 (.Controller 64 127)⟩, ⟨0, .Midi 0 (.NoteOn 60 80)⟩,
        ⟨0, .Midi 0 (.NoteOn 62 80)⟩, ⟨0, .Midi 0 (.NoteOn 60 0)⟩, ⟨0, .Midi 0 (.NoteOn 62 0)⟩,
        ⟨0, .Midi 0 (.Controller 64 0)⟩]).events
      ≠ (encodeTrack List.reverse 7 [⟨0, .Midi 0 (.Controller 64 127)⟩,
        ⟨0, .Midi 0 (.NoteOn 60 80)⟩, ⟨0, .Midi 0 (.NoteOn 62 80)⟩, ⟨0, .Midi 0 (.NoteOn 60 0)⟩,
        ⟨0, .Midi 0 (.NoteOn 62 0)⟩, ⟨0, .Midi 0 (.Controller 64 0)⟩]).events := by
  exact ⟨by rfl, by rfl, by decide⟩

/-- Closed witness for `claim8_determinism_amended`: the two runs of the
counterexample's stream under the identity and reversed iteration orders
agree on state and are permutations of each other. -/
theorem claim8_determinism_amended_witness :
    (encodeTrack id 7 [⟨0, .Midi 0 (.Controller 64 127)⟩, ⟨0, .Midi 0 (.NoteOn 60 80)⟩,
        ⟨0, .Midi 0 (.NoteOn 62 80)⟩, ⟨0, .Midi 0 (.NoteOn 60 0)⟩, ⟨0, .Midi 0 (.NoteOn 62 0)⟩,
        ⟨0, .Midi 0 (.Controller 64 0)⟩]).enc
      = (encodeTrack List.reverse 7 [⟨0, .Midi 0 (.Controller 64 127)⟩,
        ⟨0, .Midi 0 (.NoteOn 60 80)⟩, ⟨0, .Midi 0 (.NoteOn 62 80)⟩, ⟨0, .Midi 0 (.NoteOn 60 0)⟩,
        ⟨0, .Midi 0 (.NoteOn 62 0)⟩, ⟨0, .Midi 0 (.Controller 64 0)⟩]).enc ∧
    ((encodeTrack id 7 [⟨0, .Midi 0 (.Controller 64 127)⟩, ⟨0, .Midi 0 (.NoteOn 60 80)⟩,
        ⟨0, .Midi 0 (.NoteOn 62 80)⟩, ⟨0, .Midi 0 (.NoteOn 60 0)⟩, ⟨0, .Midi 0 (.NoteOn 62 0)⟩,
        ⟨0, .Midi 0 (.Controller 64 0)⟩]).events).Perm
      ((encodeTrack List.reverse 7 [⟨0, .Midi 0 (.Controller 64 127)⟩,
        ⟨0, .Midi 0 (.NoteOn 60 80)⟩, ⟨0, .Midi 0 (.NoteOn 62 80)⟩, ⟨0, .Midi 0 (.NoteOn 60 0)⟩,
        ⟨0, .Midi 0 (.NoteOn 62 0)⟩, ⟨0, .Midi 0 (.Controller 64 0)⟩]).events) := by
  have h := claim8_determinism_amended id List.reverse 7
    [⟨0, .Midi 0 (.Controller 64 127)⟩, ⟨0, .Midi 0 (.NoteOn 60 80)⟩,
      ⟨0, .Midi 0 (.NoteOn 62 80)⟩, ⟨0, .Midi 0 (.NoteOn 60 0)⟩, ⟨0, .Midi 0 (.NoteOn 62 0)⟩,
      ⟨0, .Midi 0 (.Controller 64 0)⟩]
    (fun l => List.Perm.refl l) (fun l => List.reverse_perm l)
  exact ⟨h.1, h.2.2⟩

end Midi2Performance
